import Mathlib

/-!
Shallow embedding of the stale-branch Slack notifier (`src/index.ts`).

The action enumerates non-protected branches of a repository in pages of
100, classifies each branch by the age in days of its tip commit,
groups stale branches by commit author, formats a per-author digest and
posts one Slack message per author.  Network effects are modelled by
explicit functions (`Fetch` for per-branch commit lookup, `PageFetch`
for branch pages, and an attempt-indexed request function for the retry
wrapper); times are integer epoch milliseconds and fractional day
counts are exact rationals.
-/

namespace StaleBranches

/-- A repository branch: `branch.name` and `branch.commit.sha`. -/
structure Branch where
  name : String
  commitSha : String
deriving DecidableEq

/-- Result of `octokit.rest.repos.getCommit`:
`commitInfo.data.commit.committer?.date` parsed as epoch milliseconds
(`none` when the date is absent or malformed, i.e. `new Date(...)` is an
Invalid Date), and `commitInfo.data.author?.login`. -/
structure CommitInfo where
  committerDate : Option Int
  authorLogin : Option String
deriving DecidableEq

/-- A per-branch staleness record pushed into `staleBranchesByAuthor`. -/
structure StaleRecord where
  name : String
  daysSinceLastCommit : ℚ
deriving DecidableEq

/-- The commit-metadata fetch for a branch, `makeRequestWithRetry`
already applied: `.error ()` when the retry budget is exhausted. -/
abbrev Fetch := Branch → Except Unit CommitInfo

/-- `1000 * 60 * 60 * 24`, the divisor converting milliseconds to days. -/
def msPerDay : Int := 1000 * 60 * 60 * 24

/-- JavaScript `s || fallback` on a possibly undefined string: the
fallback is used when the value is `undefined` or the empty string. -/
def jsOrString (v : Option String) (fallback : String) : String :=
  match v with
  | none => fallback
  | some s => if s = "" then fallback else s

/-- The computed age of a branch in fractional days:
`(now - commitDate.getTime()) / (1000*60*60*24)`; `none` stands for the
`NaN` produced when the committer date is absent or malformed. -/
def branchAge (info : CommitInfo) (now : Int) : Option ℚ :=
  info.committerDate.map (fun t => ((now - t : Int) : ℚ) / (msPerDay : ℚ))

/-- The body of the per-branch task in `run`: fetch the tip commit,
compute `daysSinceLastCommit`, and when the branch is stale return the
author key and record pushed into `staleBranchesByAuthor`.  `none`
covers the three drop cases of the source: the fetch threw (caught by
the per-branch `catch`), the age is `NaN` (an absent or malformed
committer date makes `daysSinceLastCommit >= daysBeforeStale` false),
or the branch is fresher than the threshold. -/
def classifyBranch (fetch : Fetch) (now : Int) (daysBeforeStale : Int)
    (branch : Branch) : Option (String × StaleRecord) :=
  match fetch branch with
  | .error _ => none
  | .ok info =>
    match info.committerDate with
    | none => none
    | some t =>
      let daysSinceLastCommit : ℚ := ((now - t : Int) : ℚ) / (msPerDay : ℚ)
      if (daysBeforeStale : ℚ) ≤ daysSinceLastCommit then
        some (jsOrString info.authorLogin "UNKNOWN",
              ⟨branch.name, daysSinceLastCommit⟩)
      else none

/-- One batch of `batchBranches.map(...)` under `Promise.all`: the
successful classifications of the batch, in batch order. -/
def processBatch (fetch : Fetch) (now daysBeforeStale : Int)
    (batch : List Branch) : List (String × StaleRecord) :=
  batch.filterMap (classifyBranch fetch now daysBeforeStale)

/-- The batched loop `for (let i = 0; i < branches.length; i += 10)`:
slices of ten branches, processed in order. -/
def processBranches (fetch : Fetch) (now daysBeforeStale : Int)
    (branches : List Branch) : List (String × StaleRecord) :=
  match branches with
  | [] => []
  | b :: bs =>
    processBatch fetch now daysBeforeStale ((b :: bs).take 10) ++
      processBranches fetch now daysBeforeStale ((b :: bs).drop 10)
termination_by branches.length
decreasing_by simp [List.length_drop]; omega

/-- Insert a record into the author map, modelling
`staleBranchesByAuthor[author].push(record)` with JavaScript object
key-insertion order: an existing key keeps its position, a new key is
appended at the end. -/
def pushRecord : List (String × List StaleRecord) → String → StaleRecord →
    List (String × List StaleRecord)
  | [], author, r => [(author, [r])]
  | (a, rs) :: rest, author, r =>
    if a = author then (a, rs ++ [r]) :: rest
    else (a, rs) :: pushRecord rest author r

/-- `staleBranchesByAuthor` built from the stream of classified
records. -/
def groupByAuthor (pairs : List (String × StaleRecord)) :
    List (String × List StaleRecord) :=
  pairs.foldl (fun g p => pushRecord g p.1 p.2) []

/-- Insertion step of the stable descending sort performed by
`sort((a, b) => b.daysSinceLastCommit - a.daysSinceLastCommit)`. -/
def insertDesc (x : StaleRecord) : List StaleRecord → List StaleRecord
  | [] => [x]
  | y :: ys =>
    if y.daysSinceLastCommit < x.daysSinceLastCommit then x :: y :: ys
    else y :: insertDesc x ys

/-- Stable sort of one author's records, descending by
`daysSinceLastCommit`. -/
def sortDesc (l : List StaleRecord) : List StaleRecord :=
  l.foldr insertDesc []

/-- The `for (const author in staleBranchesByAuthor)` sorting pass. -/
def sortGroups (groups : List (String × List StaleRecord)) :
    List (String × List StaleRecord) :=
  groups.map (fun g => (g.1, sortDesc g.2))

/-- `String.prototype.split` with a one-character separator, on the
character list: `"".split(sep)` is `[""]`, and separators delimit
(possibly empty) fields. -/
def splitChar (sep : Char) : List Char → List (List Char)
  | [] => [[]]
  | c :: cs =>
    match splitChar sep cs with
    | [] => [[c]]
    | h :: t => if c = sep then [] :: h :: t else (c :: h) :: t

/-- JavaScript `s.split(sep)` for a one-character separator string. -/
def jsSplit (s : String) (sep : Char) : List String :=
  (splitChar sep s.data).map (fun l => ⟨l⟩)

/-- The parsed `SLACK_USERS` entries:
`(env || "").split(",").map(m => m.split(":"))`; each entry keeps its
key and the second split component when present (`Object.fromEntries`
uses `e[0]` and `e[1]`). -/
def slackUsersEntries (env : String) : List (String × Option String) :=
  (jsSplit env ',').map (fun m =>
    match jsSplit m ':' with
    | [] => ("", none)
    | k :: rest => (k, rest.head?))

/-- Property lookup on the object built by `Object.fromEntries`: the
last entry with the key wins; `none` is JavaScript `undefined`, both
for a missing key and for a key whose value component was missing. -/
def objLookup (entries : List (String × Option String)) (key : String) :
    Option String :=
  match entries.reverse.find? (fun e => e.1 == key) with
  | none => none
  | some e => e.2

/-- `getSlackUsername`: the source returns
`slackUsers[gitUsername] + " (" + gitUsername + ")" || "@" + gitUsername`;
`+` binds tighter than `||`, the left operand stringifies `undefined` to
`"undefined"` and always ends in `")"`, so it is never the empty string
and the `"@" + gitUsername` alternative is dead code. -/
def getSlackUsername (slackUsersEnv : String) (gitUsername : String) : String :=
  let resolved := objLookup (slackUsersEntries slackUsersEnv) gitUsername
  let concatenated :=
    (match resolved with | some s => s | none => "undefined") ++
      " (" ++ gitUsername ++ ")"
  if concatenated = "" then "@" ++ gitUsername else concatenated

/-- `String.prototype.trim`: drop whitespace from both ends of the
character list. -/
def trimChars (l : List Char) : List Char :=
  ((l.dropWhile Char.isWhitespace).reverse.dropWhile Char.isWhitespace).reverse

/-- JavaScript `s.trim()`. -/
def jsTrim (s : String) : String := ⟨trimChars s.data⟩

/-- Truncation toward zero of a rational, as JavaScript `%` uses. -/
def ratTrunc (q : ℚ) : Int := if 0 ≤ q then ⌊q⌋ else ⌈q⌉

/-- JavaScript `%` on numbers: `a - b * trunc(a / b)`. -/
def jsMod (a b : ℚ) : ℚ := a - b * (ratTrunc (a / b) : ℚ)

/-- `parseTime`: renders a fractional day count as
`years / months / days` with a 365-day year and a 30-day month.  Note
the source computes `remainingDays` as `Math.floor(days % 30)` from the
total, not from the remainder left after removing years. -/
def parseTime (days : ℚ) : String :=
  let years : Int := ⌊days / 365⌋
  let months : Int := ⌊jsMod days 365 / 30⌋
  let remainingDays : Int := ⌊jsMod days 30⌋
  let t0 := ""
  let t1 := if 0 < years then
      t0 ++ toString years ++ " year" ++ (if 1 < years then "s" else "") ++ " "
    else t0
  let t2 := if 0 < months then
      t1 ++ toString months ++ " month" ++ (if 1 < months then "s" else "") ++ " "
    else t1
  let t3 := if 0 < remainingDays then
      t2 ++ toString remainingDays ++ " day" ++ (if 1 < remainingDays then "s" else "") ++ " "
    else t2
  let t4 := if t3 = "" then "0 days" else t3
  jsTrim t4

/-- Modelled from the spec, as amended: decompose a whole number of
days into years = d div 365, months = (d mod 365) div 30 and remaining
days = d mod 30 (the final component is taken from the total, not from
the remainder after years), emit each nonzero component with correct
pluralization, space-joined and trimmed, and emit "0 days" when all
components are zero. -/
def parseTimeAmendedSpec (d : Nat) : String :=
  let years := d / 365
  let months := (d % 365) / 30
  let remainingDays := d % 30
  let t1 := if 0 < years then
      "" ++ toString years ++ " year" ++ (if 1 < years then "s" else "") ++ " "
    else ""
  let t2 := if 0 < months then
      t1 ++ toString months ++ " month" ++ (if 1 < months then "s" else "") ++ " "
    else t1
  let t3 := if 0 < remainingDays then
      t2 ++ toString remainingDays ++ " day" ++ (if 1 < remainingDays then "s" else "") ++ " "
    else t2
  let t4 := if t3 = "" then "0 days" else t3
  jsTrim t4

/-- One author's Slack message: header with mention and count, one line
per record, and the fixed separator. -/
def formatMessage (slackUsersEnv : String) (author : String)
    (records : List StaleRecord) : String :=
  let header := getSlackUsername slackUsersEnv author ++ " you have " ++
    toString records.length ++ " stale branches:\n"
  let body := records.foldl
    (fun m r => m ++ "`" ++ r.name ++ "` - stale by " ++
      parseTime r.daysSinceLastCommit ++ "\n") header
  body ++ "\n\n====================\n\n"

/-- The body of `axios.default.post`: `JSON.stringify({ text: message })`
serializes an object with the single field `text`. -/
structure SlackPayload where
  text : String
deriving DecidableEq

/-- The digest: grouped then per-author sorted records, in author
insertion order. -/
def buildDigest (fetch : Fetch) (now daysBeforeStale : Int)
    (branches : List Branch) : List (String × List StaleRecord) :=
  sortGroups (groupByAuthor (processBranches fetch now daysBeforeStale branches))

/-- The notification loop: one POST payload per author group. -/
def buildPosts (slackUsersEnv : String)
    (digest : List (String × List StaleRecord)) : List SlackPayload :=
  digest.map (fun g => ⟨formatMessage slackUsersEnv g.1 g.2⟩)

/-- End-to-end pipeline of `run` after branch enumeration: the sequence
of webhook POST bodies issued. -/
def runPosts (fetch : Fetch) (now daysBeforeStale : Int)
    (slackUsersEnv : String) (branches : List Branch) : List SlackPayload :=
  buildPosts slackUsersEnv (buildDigest fetch now daysBeforeStale branches)

/-- A failure raised by a request: `error.response?.status` and the
parsed `retry-after` header (`none` when the header is absent or
falsy). -/
structure ReqError where
  status : Option Nat
  retryAfter : Option Nat
deriving DecidableEq

/-- Result of `makeRequestWithRetry`: the success value, the last error
rethrown by `throw error` on the final attempt, or the trailing
`throw new Error('Max retries exceeded')` after the loop. -/
inductive RetryOutcome (α : Type) where
  | ok : α → RetryOutcome α
  | opError : ReqError → RetryOutcome α
  | maxRetriesExceeded : RetryOutcome α
deriving DecidableEq

/-- The wait in milliseconds chosen after a failed attempt: the
`retry-after` hint times 1000 on a 403 carrying one, otherwise
`Math.pow(2, attempt) * 1000`. -/
def backoffWait (e : ReqError) (attempt : Nat) : Nat :=
  match e.status, e.retryAfter with
  | some 403, some ra => ra * 1000
  | _, _ => 2 ^ attempt * 1000

/-- The `for (let attempt = 1; attempt <= maxRetries; attempt++)` loop
of `makeRequestWithRetry`.  The operation is modelled as a function
from the (1-based) attempt number to that attempt's outcome.  Returns
the outcome together with the list of waits performed (in ms). -/
def retryLoop {α : Type} (request : Nat → Except ReqError α)
    (maxRetries : Nat) (attempt : Nat) : RetryOutcome α × List Nat :=
  if maxRetries < attempt then (.maxRetriesExceeded, [])
  else
    match request attempt with
    | .ok a => (.ok a, [])
    | .error e =>
      if attempt = maxRetries then (.opError e, [])
      else
        let rest := retryLoop request maxRetries (attempt + 1)
        (rest.1, backoffWait e attempt :: rest.2)
termination_by maxRetries + 1 - attempt
decreasing_by omega

/-- `makeRequestWithRetry(request, maxRetries = 5)`. -/
def makeRequestWithRetry {α : Type} (request : Nat → Except ReqError α)
    (maxRetries : Nat := 5) : RetryOutcome α × List Nat :=
  retryLoop request maxRetries 1

/-- A page fetch for `listBranches`, the retry wrapper already applied:
`.error ()` when the retry budget is exhausted. -/
abbrev PageFetch := Nat → Except Unit (List Branch)

/-- `per_page = 100`. -/
def perPage : Nat := 100

/-- The `while (true)` pagination loop of `getAllBranches`, with the
surrounding `try`/`catch`: on a failed page fetch the branches
accumulated so far are returned (the error is not propagated).  `fuel`
bounds the number of iterations so the loop is total; every claim
supplies enough fuel to reach the loop's own exit.  The second
component counts the pages successfully fetched. -/
def getAllBranchesLoop (fetchPage : PageFetch) (fuel : Nat) (page : Nat)
    (branches : List Branch) : List Branch × Nat :=
  match fuel with
  | 0 => (branches, 0)
  | fuel + 1 =>
    match fetchPage page with
    | .error _ => (branches, 0)
    | .ok data =>
      let branches := branches ++ data
      if data.length < perPage then (branches, 1)
      else
        let rest := getAllBranchesLoop fetchPage fuel (page + 1) branches
        (rest.1, rest.2 + 1)

/-- `getAllBranches`: start at page 1 with an empty accumulator. -/
def getAllBranches (fetchPage : PageFetch) (fuel : Nat) :
    List Branch × Nat :=
  getAllBranchesLoop fetchPage fuel 1 []

/-- The GitHub `listBranches` endpoint for a repository whose full
branch list is `allBranches`: page `p` (1-based) holds the entries from
index `(p-1)*100`, at most 100 of them. -/
def serverPages (allBranches : List Branch) : PageFetch :=
  fun page => .ok ((allBranches.drop ((page - 1) * perPage)).take perPage)

/-! ### Concrete fixtures

A tiny repository used to exercise the pipeline on concrete inputs: a
45-day-old branch and a 10-day-old branch, both authored by "carol",
plus a branch whose commit fetch fails, with `now` fixed 45 days after
epoch. -/

def branchW1 : Branch := ⟨"old45", "sha1"⟩

def branchW2 : Branch := ⟨"fresh10", "sha2"⟩

def branchBad : Branch := ⟨"bad", "sha3"⟩

def nowW : Int := 45 * msPerDay

def fetchW : Fetch := fun b =>
  if b.name = "bad" then .error ()
  else if b.name = "fresh10" then .ok ⟨some (35 * msPerDay), some "carol"⟩
  else .ok ⟨some 0, some "carol"⟩

def branches250 : List Branch := (List.range 250).map (fun i => ⟨toString i, ""⟩)

def pageData1 : List Branch := (List.range 100).map (fun i => ⟨toString i, ""⟩)

def fetchPagesFail2 : PageFetch := fun p => if p = 1 then .ok pageData1 else .error ()

def reqW : Nat → Except ReqError Nat := fun n =>
  if n ≤ 2 then .error ⟨none, none⟩ else .ok 42

def reqFailW : Nat → Except ReqError Nat := fun _ => .error ⟨some 500, none⟩

/-! ## Theorems -/

theorem floor_natCast_div (a b : Nat) : ⌊(a : ℚ) / (b : ℚ)⌋ = (a / b : Nat) := by
  rw [show ((a:ℚ)) = ((a:ℤ):ℚ) by push_cast; ring]
  rw [show ((b:ℚ)) = (((b:ℕ)):ℚ) from rfl]
  rw [Rat.floor_intCast_div_natCast]
  push_cast
  rfl

theorem ratTrunc_natCast_div (a b : Nat) :
    ratTrunc ((a : ℚ) / (b : ℚ)) = (a / b : Nat) := by
  rw [ratTrunc, if_pos (by positivity), floor_natCast_div]

theorem jsMod_natCast (a b : Nat) :
    jsMod (a : ℚ) (b : ℚ) = ((a % b : Nat) : ℚ) := by
  rw [jsMod, ratTrunc_natCast_div]
  have h := Nat.mod_add_div a b
  have hc : ((a % b + b * (a / b) : ℕ) : ℚ) = ((a : ℕ) : ℚ) := by rw [h]
  rw [Int.cast_natCast]
  push_cast at hc
  linarith

/-- C2 (amended): `parseTime`, given a whole number of days `d ≥ 0`,
decomposes it as years = d div 365, months = (d mod 365) div 30 and
remaining days = d mod 30 (computed from the total days, not from the
remainder left after removing years and months), emits each nonzero
component with correct pluralization, space-joined and trimmed, emits
"0 days" when all components are zero, and in particular maps 0 days to
"0 days", 1 day to "1 day", 30 days to "1 month" and 400 days to
"1 year 1 month 10 days". -/
theorem parseTime_amended :
    (∀ d : ℕ, parseTime (d : ℚ) = parseTimeAmendedSpec d) ∧
    parseTime 0 = "0 days" ∧ parseTime 1 = "1 day" ∧
    parseTime 30 = "1 month" ∧ parseTime 400 = "1 year 1 month 10 days" := by
  refine ⟨fun d => ?_, ?_, ?_, ?_, ?_⟩
  · unfold parseTime parseTimeAmendedSpec
    rw [show ((365:ℚ)) = ((365:ℕ):ℚ) by norm_num,
        show ((30:ℚ)) = ((30:ℕ):ℚ) by norm_num]
    rw [floor_natCast_div, jsMod_natCast, jsMod_natCast, floor_natCast_div,
        Int.floor_natCast]
    simp only [Int.natCast_pos, Nat.one_lt_cast]
    rfl
  all_goals unfold parseTime jsMod ratTrunc
  all_goals norm_num
  all_goals decide

/-- C2, counterexample to the claim as stated: the source computes the
remaining-days component as `Math.floor(days % 30)` from the total, so
400 days renders as "1 year 1 month 10 days", not
"1 year 1 month 5 days". -/
theorem parseTime_claim_counterexample :
    parseTime 400 ≠ "1 year 1 month 5 days" := by
  have h : parseTime 400 = "1 year 1 month 10 days" := by
    unfold parseTime jsMod ratTrunc
    norm_num
    decide
  rw [h]
  decide

/-- C3 (code bug): with mapping "alice:@al" the login "alice" renders
"@al (alice)" as the spec says; but for the unmapped login "bob" the
source's `slackUsers[g] + " (" + g + ")" || "@" + g` concatenates
before applying `||`, the left operand is never the empty string, so
the fallback is dead code and "bob" renders "undefined (bob)", not
"@bob". -/
theorem getSlackUsername_fallback_bug :
    getSlackUsername "alice:@al" "alice" = "@al (alice)" ∧
    getSlackUsername "alice:@al" "bob" = "undefined (bob)" ∧
    getSlackUsername "alice:@al" "bob" ≠ "@bob" :=
  ⟨by decide, by decide, by decide⟩

theorem mem_insertDesc {x y : StaleRecord} {l : List StaleRecord} :
    y ∈ insertDesc x l ↔ y = x ∨ y ∈ l := by
  induction l with
  | nil => simp [insertDesc]
  | cons z zs ih =>
    by_cases h : z.daysSinceLastCommit < x.daysSinceLastCommit
    · simp only [insertDesc, if_pos h, List.mem_cons]
    · simp only [insertDesc, if_neg h, List.mem_cons, ih]
      tauto

theorem pairwise_insertDesc {x : StaleRecord} {l : List StaleRecord}
    (h : l.Pairwise (fun a b => b.daysSinceLastCommit ≤ a.daysSinceLastCommit)) :
    (insertDesc x l).Pairwise
      (fun a b => b.daysSinceLastCommit ≤ a.daysSinceLastCommit) := by
  induction l with
  | nil => simp [insertDesc]
  | cons z zs ih =>
    rcases List.pairwise_cons.mp h with ⟨hz, hzs⟩
    by_cases hc : z.daysSinceLastCommit < x.daysSinceLastCommit
    · rw [insertDesc, if_pos hc]
      refine List.pairwise_cons.mpr ⟨?_, h⟩
      intro w hw
      rcases List.mem_cons.mp hw with rfl | hw
      · exact le_of_lt hc
      · exact le_trans (hz w hw) (le_of_lt hc)
    · rw [insertDesc, if_neg hc]
      refine List.pairwise_cons.mpr ⟨?_, ih hzs⟩
      intro w hw
      rcases mem_insertDesc.mp hw with rfl | hw
      · exact le_of_not_lt hc
      · exact hz w hw

theorem sortDesc_pairwise (l : List StaleRecord) :
    (sortDesc l).Pairwise
      (fun a b => b.daysSinceLastCommit ≤ a.daysSinceLastCommit) := by
  induction l with
  | nil => exact List.Pairwise.nil
  | cons x xs ih => exact pairwise_insertDesc ih

/-- C7: every author group of the digest is sorted in non-increasing
order of days-since-last-commit, and records with ages [5, 40, 12] are
ordered [40, 12, 5]. -/
theorem digest_groups_sorted :
    (∀ (fetch : Fetch) (now daysBeforeStale : Int) (branches : List Branch),
      ∀ g ∈ buildDigest fetch now daysBeforeStale branches,
        g.2.Pairwise (fun a b => b.daysSinceLastCommit ≤ a.daysSinceLastCommit)) ∧
    sortDesc [⟨"a", 5⟩, ⟨"b", 40⟩, ⟨"c", 12⟩] =
      [⟨"b", 40⟩, ⟨"c", 12⟩, ⟨"a", 5⟩] := by
  refine ⟨?_, by decide⟩
  intro fetch now daysBeforeStale branches g hg
  rcases List.mem_map.mp hg with ⟨g', _, rfl⟩
  exact sortDesc_pairwise g'.2

theorem processBranches_eq_filterMap (fetch : Fetch) (now daysBeforeStale : Int) :
    ∀ l : List Branch, processBranches fetch now daysBeforeStale l =
      l.filterMap (classifyBranch fetch now daysBeforeStale) := by
  intro l
  induction l using processBranches.induct fetch now daysBeforeStale with
  | case1 => rw [processBranches]; rfl
  | case2 b bs ih =>
    rw [processBranches, processBatch, ih, ← List.filterMap_append,
        List.take_append_drop]

theorem mem_sortDesc {x : StaleRecord} {l : List StaleRecord} :
    x ∈ sortDesc l ↔ x ∈ l := by
  induction l with
  | nil => simp [sortDesc]
  | cons y ys ih =>
    show x ∈ insertDesc y (sortDesc ys) ↔ _
    rw [mem_insertDesc, ih, List.mem_cons]

theorem pushRecord_mem {G : List (String × List StaleRecord)} {a : String}
    {r : StaleRecord} {P : StaleRecord → Prop} :
    (∃ g ∈ pushRecord G a r, ∃ x ∈ g.2, P x) ↔
      (∃ g ∈ G, ∃ x ∈ g.2, P x) ∨ P r := by
  induction G with
  | nil => simp [pushRecord]
  | cons g0 G ih =>
    obtain ⟨a0, rs0⟩ := g0
    rw [pushRecord]
    split
    · simp only [List.mem_cons, List.mem_append, List.mem_singleton]
      aesop
    · simp only [List.mem_cons]
      constructor
      · rintro ⟨g, hg | hg, x, hx, hP⟩
        · exact Or.inl ⟨g, Or.inl hg, x, hx, hP⟩
        · rcases ih.mp ⟨g, hg, x, hx, hP⟩ with ⟨g', hg', hx'⟩ | hP'
          · exact Or.inl ⟨g', Or.inr hg', hx'⟩
          · exact Or.inr hP'
      · rintro (⟨g, hg | hg, x, hx, hP⟩ | hP)
        · exact ⟨g, Or.inl hg, x, hx, hP⟩
        · rcases ih.mpr (Or.inl ⟨g, hg, x, hx, hP⟩) with ⟨g', hg', hx'⟩
          exact ⟨g', Or.inr hg', hx'⟩
        · rcases ih.mpr (Or.inr hP) with ⟨g', hg', hx'⟩
          exact ⟨g', Or.inr hg', hx'⟩

theorem foldl_pushRecord_mem {P : StaleRecord → Prop} :
    ∀ (pairs : List (String × StaleRecord))
      (G : List (String × List StaleRecord)),
    (∃ g ∈ pairs.foldl (fun g p => pushRecord g p.1 p.2) G, ∃ x ∈ g.2, P x) ↔
      (∃ g ∈ G, ∃ x ∈ g.2, P x) ∨ (∃ p ∈ pairs, P p.2) := by
  intro pairs
  induction pairs with
  | nil => simp
  | cons p ps ih =>
    intro G
    rw [List.foldl_cons, ih, pushRecord_mem]
    simp only [List.mem_cons]
    constructor
    · rintro ((h | h) | h)
      · exact Or.inl h
      · exact Or.inr ⟨p, Or.inl rfl, h⟩
      · rcases h with ⟨q, hq, hP⟩
        exact Or.inr ⟨q, Or.inr hq, hP⟩
    · rintro (h | ⟨q, rfl | hq, hP⟩)
      · exact Or.inl (Or.inl h)
      · exact Or.inl (Or.inr hP)
      · exact Or.inr ⟨q, hq, hP⟩

theorem mem_digest_iff {fetch : Fetch} {now daysBeforeStale : Int}
    {branches : List Branch} {P : StaleRecord → Prop} :
    (∃ g ∈ buildDigest fetch now daysBeforeStale branches, ∃ x ∈ g.2, P x) ↔
      (∃ b ∈ branches, ∃ pr, classifyBranch fetch now daysBeforeStale b = some pr ∧ P pr.2) := by
  rw [buildDigest]
  have hsort : (∃ g ∈ sortGroups (groupByAuthor (processBranches fetch now daysBeforeStale branches)), ∃ x ∈ g.2, P x) ↔
      (∃ g ∈ groupByAuthor (processBranches fetch now daysBeforeStale branches), ∃ x ∈ g.2, P x) := by
    constructor
    · rintro ⟨g, hg, x, hx, hP⟩
      rcases List.mem_map.mp hg with ⟨g', hg', rfl⟩
      exact ⟨g', hg', x, mem_sortDesc.mp hx, hP⟩
    · rintro ⟨g, hg, x, hx, hP⟩
      exact ⟨(g.1, sortDesc g.2), List.mem_map.mpr ⟨g, hg, rfl⟩, x,
        mem_sortDesc.mpr hx, hP⟩
  rw [hsort, groupByAuthor, foldl_pushRecord_mem, processBranches_eq_filterMap]
  simp only [List.not_mem_nil, false_and, exists_false, false_or,
    List.mem_filterMap]
  constructor
  · rintro ⟨p, ⟨b, hb, hc⟩, hP⟩
    exact ⟨b, hb, p, hc, hP⟩
  · rintro ⟨b, hb, pr, hc, hP⟩
    exact ⟨pr, ⟨b, hb, hc⟩, hP⟩


theorem classifyBranch_name {fetch : Fetch} {now daysBeforeStale : Int}
    {b : Branch} {pr : String × StaleRecord}
    (h : classifyBranch fetch now daysBeforeStale b = some pr) :
    pr.2.name = b.name := by
  unfold classifyBranch at h
  split at h
  · exact absurd h (by simp)
  · split at h
    · exact absurd h (by simp)
    · dsimp only at h
      split at h
      · cases h
        rfl
      · exact absurd h (by simp)

theorem classifyBranch_ok_iff {fetch : Fetch} {now daysBeforeStale : Int}
    {b : Branch} {info : CommitInfo} (hfetch : fetch b = .ok info) :
    (∃ pr, classifyBranch fetch now daysBeforeStale b = some pr) ↔
      (∃ A, branchAge info now = some A ∧ (daysBeforeStale : ℚ) ≤ A) := by
  unfold classifyBranch
  rw [hfetch]
  cases hd : info.committerDate with
  | none => simp [branchAge, hd]
  | some t =>
    simp only [branchAge, hd, Option.map_some', Option.some.injEq]
    by_cases hc : (daysBeforeStale : ℚ) ≤ ((now - t : Int) : ℚ) / (msPerDay : ℚ)
    · simp only [if_pos hc]
      exact ⟨fun _ => ⟨_, rfl, hc⟩, fun _ => ⟨_, rfl⟩⟩
    · simp only [if_neg hc]
      constructor
      · rintro ⟨pr, hpr⟩
        cases hpr
      · rintro ⟨A, rfl, hA⟩
        exact absurd hA hc

/-- C1: a branch whose commit metadata was fetched appears in some
author's group of the digest iff its computed age is not the sentinel
for an unknown commit date (the `NaN` of an absent or malformed
committer timestamp, modelled as `none`) and the age is at least the
threshold; a branch with an absent or malformed committer timestamp is
excluded from every author's group. -/
theorem stale_iff_in_digest (fetch : Fetch) (now daysBeforeStale : Int)
    (branches : List Branch) (b : Branch) (info : CommitInfo)
    (hb : b ∈ branches)
    (hnames : (branches.map Branch.name).Nodup)
    (hfetch : fetch b = .ok info) :
    ((∃ g ∈ buildDigest fetch now daysBeforeStale branches,
        ∃ r ∈ g.2, r.name = b.name) ↔
      (∃ A, branchAge info now = some A ∧ (daysBeforeStale : ℚ) ≤ A)) ∧
    (branchAge info now = none →
      ∀ g ∈ buildDigest fetch now daysBeforeStale branches,
        ∀ r ∈ g.2, r.name ≠ b.name) := by
  have hmain : (∃ g ∈ buildDigest fetch now daysBeforeStale branches,
      ∃ r ∈ g.2, r.name = b.name) ↔
      (∃ A, branchAge info now = some A ∧ (daysBeforeStale : ℚ) ≤ A) := by
    rw [mem_digest_iff]
    constructor
    · rintro ⟨b', hb', pr, hc, hname⟩
      have hbb : b' = b := by
        have hinj := (List.nodup_map_iff_inj_on hnames.of_map).mp hnames
        exact hinj b' hb' b hb (by rw [classifyBranch_name hc] at hname; exact hname)
      subst hbb
      exact (classifyBranch_ok_iff hfetch).mp ⟨pr, hc⟩
    · intro hA
      rcases (classifyBranch_ok_iff hfetch).mpr hA with ⟨pr, hpr⟩
      exact ⟨b, hb, pr, hpr, classifyBranch_name hpr⟩
  refine ⟨hmain, fun hnone g hg r hr hname => ?_⟩
  rcases hmain.mp ⟨g, hg, r, hr, hname⟩ with ⟨A, hA, _⟩
  rw [hnone] at hA
  cases hA

theorem classifyBranch_error_none {fetch : Fetch} {now daysBeforeStale : Int}
    {b : Branch} (h : fetch b = .error ()) :
    classifyBranch fetch now daysBeforeStale b = none := by
  unfold classifyBranch
  rw [h]

theorem filterMap_erase_of_none {α β : Type} [DecidableEq α]
    {f : α → Option β} {b : α} (hb : f b = none) :
    ∀ l : List α, l.filterMap f = (l.erase b).filterMap f := by
  intro l
  induction l with
  | nil => rfl
  | cons c cs ih =>
    by_cases hc : c = b
    · subst hc
      simp [List.erase_cons, List.filterMap_cons, hb]
    · rw [List.erase_cons_tail (by simp [hc]), List.filterMap_cons,
          List.filterMap_cons, ih]

/-- C8: a per-branch failure (the commit fetch erroring after retries)
is caught inside the batch: the failing branch contributes nothing, and
the records produced are exactly those produced with the failing branch
absent; in particular no record carries the failing branch's name. -/
theorem branch_failure_isolated (fetch : Fetch) (now daysBeforeStale : Int)
    (branches : List Branch) (b : Branch)
    (hfail : fetch b = .error ()) :
    processBranches fetch now daysBeforeStale branches =
      processBranches fetch now daysBeforeStale (branches.erase b) ∧
    ((branches.map Branch.name).Nodup → b ∈ branches →
      ∀ p ∈ processBranches fetch now daysBeforeStale branches,
        p.2.name ≠ b.name) := by
  constructor
  · rw [processBranches_eq_filterMap, processBranches_eq_filterMap]
    exact filterMap_erase_of_none (classifyBranch_error_none hfail) branches
  · intro hnames hb p hp hname
    rw [processBranches_eq_filterMap] at hp
    rcases List.mem_filterMap.mp hp with ⟨b', hb', hc⟩
    have hbb : b' = b := (List.nodup_map_iff_inj_on hnames.of_map).mp hnames
      b' hb' b hb (by rw [classifyBranch_name hc] at hname; exact hname)
    subst hbb
    rw [classifyBranch_error_none hfail] at hc
    cases hc

theorem retryLoop_cases {α : Type} (request : Nat → Except ReqError α)
    (maxRetries : Nat) :
    ∀ d attempt, 1 ≤ attempt → attempt ≤ maxRetries → maxRetries - attempt = d →
    (∃ a, (retryLoop request maxRetries attempt).1 = .ok a ∧
       ∃ n, attempt ≤ n ∧ n ≤ maxRetries ∧ request n = .ok a) ∨
    (∃ e, (retryLoop request maxRetries attempt).1 = .opError e ∧
       request maxRetries = .error e) := by
  intro d
  induction d with
  | zero =>
    intro attempt h1 h2 hd
    have heq : attempt = maxRetries := by omega
    subst heq
    rw [retryLoop, if_neg (by omega)]
    cases hr : request attempt with
    | ok a => exact Or.inl ⟨a, rfl, attempt, le_refl _, h2, hr⟩
    | error e =>
      dsimp only
      rw [if_pos rfl]
      exact Or.inr ⟨e, rfl, rfl⟩
  | succ d ih =>
    intro attempt h1 h2 hd
    have hlt : attempt < maxRetries := by omega
    rw [retryLoop, if_neg (by omega)]
    cases hr : request attempt with
    | ok a => exact Or.inl ⟨a, rfl, attempt, le_refl _, h2, hr⟩
    | error e =>
      dsimp only
      rw [if_neg (by omega)]
      dsimp only
      rcases ih (attempt + 1) (by omega) (by omega) (by omega) with
        ⟨a, ha, n, hn1, hn2, hn3⟩ | ⟨e', he', hreq⟩
      · exact Or.inl ⟨a, ha, n, by omega, hn2, hn3⟩
      · exact Or.inr ⟨e', he', hreq⟩


/-- C10: with at least one permitted attempt, the retry wrapper either
returns the operation's success value or rethrows an error produced by
the operation itself on the final attempt; the trailing
`throw new Error('Max retries exceeded')` after the loop is
unreachable. -/
theorem retry_result_from_operation {α : Type}
    (request : Nat → Except ReqError α) (maxRetries : Nat)
    (h : 1 ≤ maxRetries) :
    (makeRequestWithRetry request maxRetries).1 ≠ .maxRetriesExceeded ∧
    ((∃ a, (makeRequestWithRetry request maxRetries).1 = .ok a ∧
        ∃ n, 1 ≤ n ∧ n ≤ maxRetries ∧ request n = .ok a) ∨
     (∃ e, (makeRequestWithRetry request maxRetries).1 = .opError e ∧
        request maxRetries = .error e)) := by
  unfold makeRequestWithRetry
  rcases retryLoop_cases request maxRetries (maxRetries - 1) 1 le_rfl h rfl with
    ⟨a, ha, n, hn1, hn2, hn3⟩ | ⟨e, he, hreq⟩
  · exact ⟨by rw [ha]; simp, Or.inl ⟨a, ha, n, hn1, hn2, hn3⟩⟩
  · exact ⟨by rw [he]; simp, Or.inr ⟨e, he, hreq⟩⟩

/-- C4: an operation failing on the first two attempts and succeeding
on the third returns the success value after exactly the two backoff
waits; when every attempt fails the last error raised by the operation
is propagated; the wait before the next attempt is the `retry-after`
hint times 1000 on a 403 carrying one, and `2 ^ attempt` seconds
otherwise. -/
theorem retry_backoff_behavior :
    (∀ (α : Type) (request : Nat → Except ReqError α) (e₁ e₂ : ReqError) (v : α),
      request 1 = .error e₁ → request 2 = .error e₂ → request 3 = .ok v →
      makeRequestWithRetry request 5 =
        (.ok v, [backoffWait e₁ 1, backoffWait e₂ 2])) ∧
    (∀ (α : Type) (request : Nat → Except ReqError α) (maxRetries : Nat)
      (err : Nat → ReqError),
      1 ≤ maxRetries →
      (∀ n, 1 ≤ n → n ≤ maxRetries → request n = .error (err n)) →
      (makeRequestWithRetry request maxRetries).1 = .opError (err maxRetries)) ∧
    (∀ (α : Type) (request : Nat → Except ReqError α) (maxRetries attempt : Nat)
      (e : ReqError),
      1 ≤ attempt → attempt < maxRetries → request attempt = .error e →
      ((∀ ra, e.status = some 403 → e.retryAfter = some ra →
         (retryLoop request maxRetries attempt).2.head? = some (ra * 1000)) ∧
       (e.status ≠ some 403 ∨ e.retryAfter = none →
         (retryLoop request maxRetries attempt).2.head? =
           some (2 ^ attempt * 1000)))) := by
  refine ⟨?_, ?_, ?_⟩
  · intro α request e₁ e₂ v h1 h2 h3
    have s3 : retryLoop request 5 3 = (.ok v, []) := by
      rw [retryLoop, if_neg (by omega), h3]
    have s2 : retryLoop request 5 2 = (.ok v, [backoffWait e₂ 2]) := by
      rw [retryLoop, if_neg (by omega), h2]
      dsimp only
      rw [if_neg (by omega), s3]
    show retryLoop request 5 1 = _
    rw [retryLoop, if_neg (by omega), h1]
    dsimp only
    rw [if_neg (by omega), s2]
  · intro α request maxRetries err h1 hall
    unfold makeRequestWithRetry
    rcases retryLoop_cases request maxRetries (maxRetries - 1) 1 le_rfl h1 rfl with
      ⟨a, ha, n, hn1, hn2, hn3⟩ | ⟨e, he, hreq⟩
    · rw [hall n hn1 hn2] at hn3
      cases hn3
    · rw [he]
      rw [hall maxRetries h1 le_rfl] at hreq
      injection hreq with hee
      rw [hee]
  · intro α request maxRetries attempt e h1 hlt hr
    have hstep : (retryLoop request maxRetries attempt).2 =
        backoffWait e attempt :: (retryLoop request maxRetries (attempt + 1)).2 := by
      rw [retryLoop, if_neg (by omega), hr]
      dsimp only
      rw [if_neg (by omega)]
    constructor
    · intro ra h403 hra
      rw [hstep, List.head?_cons]
      rw [show backoffWait e attempt = ra * 1000 by
        unfold backoffWait
        rw [h403, hra]]
    · intro hother
      rw [hstep, List.head?_cons]
      rw [show backoffWait e attempt = 2 ^ attempt * 1000 by
        unfold backoffWait
        split
        · rename_i heq1 heq2
          rcases hother with h | h
          · exact absurd heq1 h
          · rw [h] at heq2
            cases heq2
        · rfl]

theorem getAllBranchesLoop_server (allB : List Branch) :
    ∀ (fuel page : Nat) (acc : List Branch), 1 ≤ page →
      (allB.drop ((page - 1) * perPage)).length < perPage * fuel →
      getAllBranchesLoop (serverPages allB) fuel page acc =
        (acc ++ allB.drop ((page - 1) * perPage),
         (allB.drop ((page - 1) * perPage)).length / perPage + 1) := by
  intro fuel
  induction fuel with
  | zero =>
    intro page acc hp h
    simp at h
  | succ fuel ih =>
    intro page acc hp h
    obtain ⟨q, rfl⟩ : ∃ q, page = q + 1 := ⟨page - 1, by omega⟩
    rw [getAllBranchesLoop]
    show (match serverPages allB (q + 1) with
      | .error _ => (acc, 0)
      | .ok data => _) = _
    rw [serverPages]
    dsimp only
    simp only [Nat.add_sub_cancel] at h ⊢
    set R := allB.drop (q * perPage) with hR
    by_cases hlen : R.length < perPage
    · rw [List.take_of_length_le (le_of_lt hlen), if_pos hlen,
          Nat.div_eq_of_lt hlen]
    · have hge : perPage ≤ R.length := le_of_not_lt hlen
      have htake : (R.take perPage).length = perPage := by
        rw [List.length_take]
        omega
      rw [if_neg (by rw [htake]; omega)]
      have hdrop : allB.drop ((q + 1 + 1 - 1) * perPage) = R.drop perPage := by
        rw [hR, List.drop_drop]
        congr 1
        simp only [Nat.add_sub_cancel]
        ring
      have hlen2 : (allB.drop ((q + 1 + 1 - 1) * perPage)).length < perPage * fuel := by
        rw [hdrop, List.length_drop]
        have hh : perPage * (fuel + 1) = perPage * fuel + perPage := by ring
        omega
      rw [ih (q + 1 + 1) (acc ++ R.take perPage) (by omega) hlen2]
      dsimp only
      simp only [Nat.add_sub_cancel] at hdrop ⊢
      rw [hdrop, List.append_assoc, List.take_append_drop, List.length_drop]
      have hdiv : (R.length - perPage) / perPage + 1 = R.length / perPage := by
        rw [Nat.div_eq_sub_div (by rw [perPage]; omega) hge]
      rw [hdiv]

/-- C5: against a repository whose full branch list is `allBranches`,
the enumerator returns exactly the whole list in page order and fetches
`length / 100 + 1` pages, stopping at the first page shorter than 100;
for 250 branches that is 3 pages. -/
theorem getAllBranches_complete (allBranches : List Branch) (fuel : Nat)
    (hfuel : allBranches.length < perPage * fuel) :
    getAllBranches (serverPages allBranches) fuel =
      (allBranches, allBranches.length / perPage + 1) := by
  rw [getAllBranches]
  have h := getAllBranchesLoop_server allBranches fuel 1 [] le_rfl
    (by simpa using hfuel)
  simpa using h


theorem getAllBranchesLoop_failAt (fetchPage : PageFetch) (k : Nat)
    (data : Nat → List Branch)
    (hok : ∀ p, 1 ≤ p → p < k → fetchPage p = .ok (data p) ∧
      (data p).length = perPage)
    (hfail : fetchPage k = .error ()) :
    ∀ (fuel page : Nat) (acc : List Branch), 1 ≤ page → page ≤ k →
      k - page < fuel →
      getAllBranchesLoop fetchPage fuel page acc =
        (acc ++ ((List.range (k - page)).map (fun i => data (page + i))).flatten,
         k - page) := by
  intro fuel
  induction fuel with
  | zero =>
    intro page acc h1 h2 h3
    omega
  | succ fuel ih =>
    intro page acc h1 h2 h3
    rw [getAllBranchesLoop]
    by_cases hpk : page = k
    · subst hpk
      rw [hfail]
      simp
    · have hlt : page < k := by omega
      rcases hok page h1 hlt with ⟨hfp, hlenp⟩
      rw [hfp]
      dsimp only
      rw [if_neg (by omega)]
      rw [ih (page + 1) (acc ++ data page) (by omega) (by omega) (by omega)]
      dsimp only
      have hrange : ((List.range (k - page)).map (fun i => data (page + i))).flatten =
          data page ++ ((List.range (k - (page + 1))).map
            (fun i => data (page + 1 + i))).flatten := by
        have hk : k - page = (k - (page + 1)) + 1 := by omega
        rw [hk, List.range_succ_eq_map, List.map_cons, List.map_map,
            List.flatten_cons, Nat.add_zero]
        have hfun : ((fun i => data (page + i)) ∘ Nat.succ) =
            fun i => data (page + 1 + i) := by
          funext i
          simp only [Function.comp]
          congr 1
          omega
        rw [hfun]
      rw [hrange, ← List.append_assoc]
      congr 1
      omega

/-- C6: when page `k` of branch enumeration fails irrecoverably while
all earlier pages were full, the enumerator does not propagate the
error: it returns exactly the branches accumulated from the pages
fetched before the failure. -/
theorem getAllBranches_partial_on_failure (fetchPage : PageFetch) (k : Nat)
    (data : Nat → List Branch) (fuel : Nat) (hk : 1 ≤ k) (hfuel : k ≤ fuel)
    (hok : ∀ p, 1 ≤ p → p < k → fetchPage p = .ok (data p) ∧
      (data p).length = perPage)
    (hfail : fetchPage k = .error ()) :
    getAllBranches fetchPage fuel =
      (((List.range (k - 1)).map (fun i => data (1 + i))).flatten, k - 1) := by
  rw [getAllBranches]
  rw [getAllBranchesLoop_failAt fetchPage k data hok hfail fuel 1 [] le_rfl hk
    (by omega)]
  simp

theorem mem_keys_pushRecord {G : List (String × List StaleRecord)}
    {a x : String} {r : StaleRecord} :
    x ∈ (pushRecord G a r).map Prod.fst ↔ x ∈ G.map Prod.fst ∨ x = a := by
  induction G with
  | nil => simp [pushRecord]
  | cons g0 G ih =>
    obtain ⟨a0, rs0⟩ := g0
    rw [pushRecord]
    split
    · rename_i heq
      subst heq
      simp only [List.map_cons, List.mem_cons]
      tauto
    · rename_i hne
      simp only [List.map_cons, List.mem_cons, ih]
      tauto

theorem keys_nodup_pushRecord {G : List (String × List StaleRecord)}
    {a : String} {r : StaleRecord} (h : (G.map Prod.fst).Nodup) :
    ((pushRecord G a r).map Prod.fst).Nodup := by
  induction G with
  | nil => simp [pushRecord]
  | cons g0 G ih =>
    obtain ⟨a0, rs0⟩ := g0
    rw [List.map_cons, List.nodup_cons] at h
    rw [pushRecord]
    split
    · rename_i heq
      subst heq
      rw [List.map_cons, List.nodup_cons]
      exact h
    · rename_i hne
      rw [List.map_cons, List.nodup_cons]
      refine ⟨fun hmem => ?_, ih h.2⟩
      rcases mem_keys_pushRecord.mp hmem with hmem | rfl
      · exact h.1 hmem
      · exact hne rfl

theorem nonempty_pushRecord {G : List (String × List StaleRecord)}
    {a : String} {r : StaleRecord} (h : ∀ g ∈ G, g.2 ≠ []) :
    ∀ g ∈ pushRecord G a r, g.2 ≠ [] := by
  induction G with
  | nil =>
    intro g hg
    rcases List.mem_singleton.mp hg with rfl
    simp
  | cons g0 G ih =>
    obtain ⟨a0, rs0⟩ := g0
    intro g hg
    rw [pushRecord] at hg
    split at hg
    · rcases List.mem_cons.mp hg with rfl | hg
      · simp
      · exact h g (List.mem_cons_of_mem _ hg)
    · rcases List.mem_cons.mp hg with rfl | hg
      · exact h _ (List.mem_cons_self _ _)
      · exact ih (fun g' hg' => h g' (List.mem_cons_of_mem _ hg')) g hg

theorem groupByAuthor_foldl_keys {x : String} :
    ∀ (pairs : List (String × StaleRecord))
      (G : List (String × List StaleRecord)),
    (x ∈ (pairs.foldl (fun g p => pushRecord g p.1 p.2) G).map Prod.fst ↔
      x ∈ G.map Prod.fst ∨ x ∈ pairs.map Prod.fst) := by
  intro pairs
  induction pairs with
  | nil => simp
  | cons p ps ih =>
    intro G
    rw [List.foldl_cons, ih, mem_keys_pushRecord]
    simp only [List.map_cons, List.mem_cons]
    tauto

theorem groupByAuthor_foldl_nodup :
    ∀ (pairs : List (String × StaleRecord))
      (G : List (String × List StaleRecord)),
    (G.map Prod.fst).Nodup →
    ((pairs.foldl (fun g p => pushRecord g p.1 p.2) G).map Prod.fst).Nodup := by
  intro pairs
  induction pairs with
  | nil => exact fun G h => h
  | cons p ps ih =>
    intro G h
    rw [List.foldl_cons]
    exact ih _ (keys_nodup_pushRecord h)

theorem groupByAuthor_foldl_nonempty :
    ∀ (pairs : List (String × StaleRecord))
      (G : List (String × List StaleRecord)),
    (∀ g ∈ G, g.2 ≠ []) →
    ∀ g ∈ pairs.foldl (fun g p => pushRecord g p.1 p.2) G, g.2 ≠ [] := by
  intro pairs
  induction pairs with
  | nil => exact fun G h => h
  | cons p ps ih =>
    intro G h
    rw [List.foldl_cons]
    exact ih _ (nonempty_pushRecord h)


theorem classifyW1 : classifyBranch fetchW nowW 30 branchW1 =
    some ("carol", ⟨"old45", 45⟩) := by
  unfold classifyBranch
  rw [show fetchW branchW1 = .ok ⟨some 0, some "carol"⟩ from rfl]
  dsimp only
  rw [if_pos (by norm_num [nowW, msPerDay])]
  simp only [Option.some.injEq, Prod.mk.injEq, StaleRecord.mk.injEq]
  refine ⟨by decide, rfl, ?_⟩
  norm_num [nowW, msPerDay]

theorem classifyW2 : classifyBranch fetchW nowW 30 branchW2 = none := by
  unfold classifyBranch
  rw [show fetchW branchW2 = .ok ⟨some (35 * msPerDay), some "carol"⟩ from rfl]
  dsimp only
  rw [if_neg (by norm_num [nowW, msPerDay])]

theorem buildDigestW : buildDigest fetchW nowW 30 [branchW1, branchW2] =
    [("carol", [⟨"old45", 45⟩])] := by
  rw [buildDigest, processBranches_eq_filterMap]
  rw [List.filterMap_cons, classifyW1, List.filterMap_cons, classifyW2]
  rfl


theorem sortGroups_keys (G : List (String × List StaleRecord)) :
    (sortGroups G).map Prod.fst = G.map Prod.fst := by
  rw [sortGroups, List.map_map]
  rfl

theorem sortDesc_ne_nil {l : List StaleRecord} (h : l ≠ []) :
    sortDesc l ≠ [] := by
  cases l with
  | nil => exact absurd rfl h
  | cons x xs =>
    intro hc
    have hx : x ∈ sortDesc (x :: xs) := mem_sortDesc.mpr (List.mem_cons_self _ _)
    rw [hc] at hx
    cases hx

/-- C9: the notifier issues exactly one POST per author owning at
least one stale branch and none for other authors: the digest's author
keys are pairwise distinct and are exactly the authors of the
classified stale records, every digest group is nonempty, and each
POST body is the payload whose single `text` field is that author's
formatted digest.  Concretely, with a 10-day-old branch and a
45-day-old branch authored by "carol" and threshold 30, exactly one
POST is issued, mentioning carol's resolved handle and listing only
the 45-day branch. -/
theorem notifier_one_post_per_author :
    (∀ (fetch : Fetch) (now daysBeforeStale : Int) (env : String)
       (branches : List Branch),
      runPosts fetch now daysBeforeStale env branches =
        (buildDigest fetch now daysBeforeStale branches).map
          (fun g => ⟨formatMessage env g.1 g.2⟩) ∧
      ((buildDigest fetch now daysBeforeStale branches).map Prod.fst).Nodup ∧
      (∀ a, a ∈ (buildDigest fetch now daysBeforeStale branches).map Prod.fst ↔
        a ∈ (processBranches fetch now daysBeforeStale branches).map Prod.fst) ∧
      (∀ g ∈ buildDigest fetch now daysBeforeStale branches, g.2 ≠ [])) ∧
    runPosts fetchW nowW 30 "carol:@carol" [branchW1, branchW2] =
      [⟨"@carol (carol) you have 1 stale branches:\n`old45` - stale by 1 month 15 days\n\n\n====================\n\n"⟩] := by
  constructor
  · intro fetch now daysBeforeStale env branches
    refine ⟨rfl, ?_, ?_, ?_⟩
    · rw [buildDigest, sortGroups_keys]
      exact groupByAuthor_foldl_nodup _ [] (by simp)
    · intro a
      rw [buildDigest, sortGroups_keys, groupByAuthor]
      rw [groupByAuthor_foldl_keys]
      simp
    · intro g hg
      rw [buildDigest, sortGroups] at hg
      rcases List.mem_map.mp hg with ⟨g', hg', rfl⟩
      dsimp only
      refine sortDesc_ne_nil ?_
      exact groupByAuthor_foldl_nonempty _ [] (by simp) g' hg'
  · rw [runPosts, buildDigestW, buildPosts]
    rw [List.map_cons, List.map_nil]
    have hmsg : formatMessage "carol:@carol" "carol" [⟨"old45", 45⟩] =
        "@carol (carol) you have 1 stale branches:\n`old45` - stale by 1 month 15 days\n\n\n====================\n\n" := by
      unfold formatMessage
      dsimp only
      rw [List.foldl_cons, List.foldl_nil]
      dsimp only
      rw [show parseTime (45 : ℚ) = "1 month 15 days" by
        unfold parseTime jsMod ratTrunc
        norm_num
        decide]
      decide
    rw [hmsg]


/-- Witness for C1: the 45-day-old branch of the concrete fixture,
threshold 30. -/
theorem stale_iff_in_digest_witness :
    ((∃ g ∈ buildDigest fetchW nowW 30 [branchW1, branchW2],
        ∃ r ∈ g.2, r.name = branchW1.name) ↔
      (∃ A, branchAge ⟨some 0, some "carol"⟩ nowW = some A ∧ (30 : ℚ) ≤ A)) ∧
    (branchAge ⟨some 0, some "carol"⟩ nowW = none →
      ∀ g ∈ buildDigest fetchW nowW 30 [branchW1, branchW2],
        ∀ r ∈ g.2, r.name ≠ branchW1.name) :=
  stale_iff_in_digest fetchW nowW 30 [branchW1, branchW2] branchW1
    ⟨some 0, some "carol"⟩ (List.mem_cons_self _ _) (by decide) rfl

/-- Witness for C4: an operation failing twice with plain errors and
succeeding on the third attempt. -/
theorem retry_backoff_behavior_witness :
    makeRequestWithRetry reqW 5 =
      (.ok 42, [backoffWait ⟨none, none⟩ 1, backoffWait ⟨none, none⟩ 2]) :=
  retry_backoff_behavior.1 Nat reqW ⟨none, none⟩ ⟨none, none⟩ 42 rfl rfl rfl

/-- Witness for C5: a repository of 250 branches is fetched in 3 pages
and returned whole. -/
theorem getAllBranches_complete_witness :
    getAllBranches (serverPages branches250) 3 = (branches250, 3) := by
  have hlen : branches250.length = 250 := by simp [branches250]
  have h := getAllBranches_complete branches250 3
    (by rw [hlen]; norm_num [perPage])
  rw [h, hlen]
  norm_num [perPage]

/-- Witness for C6: page 1 is full, page 2 fails; the enumerator
returns page 1's branches. -/
theorem getAllBranches_partial_on_failure_witness :
    getAllBranches fetchPagesFail2 2 = (pageData1, 1) := by
  have h := getAllBranches_partial_on_failure fetchPagesFail2 2
    (fun _ => pageData1) 2 (by omega) le_rfl
    (fun p hp1 hpk => by
      have hp : p = 1 := by omega
      subst hp
      exact ⟨rfl, by simp [pageData1, perPage]⟩)
    rfl
  simpa using h

/-- Witness for C7: the digest group of the concrete fixture is
sorted. -/
theorem digest_groups_sorted_witness :
    ([(⟨"old45", (45 : ℚ)⟩ : StaleRecord)]).Pairwise
      (fun a b => b.daysSinceLastCommit ≤ a.daysSinceLastCommit) :=
  digest_groups_sorted.1 fetchW nowW 30 [branchW1, branchW2]
    ("carol", [⟨"old45", 45⟩])
    (by rw [buildDigestW]; exact List.mem_singleton.mpr rfl)

/-- Witness for C8: the branch "bad" fails to fetch; the records equal
those computed without it and never carry its name. -/
theorem branch_failure_isolated_witness :
    (processBranches fetchW nowW 30 [branchW1, branchBad] =
      processBranches fetchW nowW 30 ([branchW1, branchBad].erase branchBad)) ∧
    (([branchW1, branchBad].map Branch.name).Nodup →
      branchBad ∈ [branchW1, branchBad] →
      ∀ p ∈ processBranches fetchW nowW 30 [branchW1, branchBad],
        p.2.name ≠ branchBad.name) :=
  branch_failure_isolated fetchW nowW 30 [branchW1, branchBad] branchBad rfl

/-- Witness for C9: the general digest facts at the concrete
fixture, and in particular the fixture's single group is nonempty. -/
theorem notifier_one_post_per_author_witness :
    ("carol", [(⟨"old45", (45 : ℚ)⟩ : StaleRecord)]).2 ≠ [] :=
  (notifier_one_post_per_author.1 fetchW nowW 30 "carol:@carol"
    [branchW1, branchW2]).2.2.2 ("carol", [⟨"old45", 45⟩])
    (by rw [buildDigestW]; exact List.mem_singleton.mpr rfl)

/-- Witness for C10: a single permitted attempt on an always-failing
operation still yields the operation's own error, not the trailing
throw. -/
theorem retry_result_from_operation_witness :
    (makeRequestWithRetry reqFailW 1).1 ≠ .maxRetriesExceeded ∧
    ((∃ a, (makeRequestWithRetry reqFailW 1).1 = .ok a ∧
        ∃ n, 1 ≤ n ∧ n ≤ 1 ∧ reqFailW n = .ok a) ∨
     (∃ e, (makeRequestWithRetry reqFailW 1).1 = .opError e ∧
        reqFailW 1 = .error e)) :=
  retry_result_from_operation reqFailW 1 le_rfl

end StaleBranches
